import Mathlib

/-!
Shallow embedding of the core of `src/bot.py` (a media-renaming bot):
the template engine (`extract_variables_from_filename`, `render_filename`,
`sanitize_filename`), the `human_size` formatter, the collision-safe output
naming loop in `process_one`, the per-user queue clearing in `cmd_clear`,
the metadata rewriter `apply_metadata`, and the concurrency structure of the
`process_one` worker guarded by `asyncio.Semaphore(CONCURRENCY)`.

Machine reals of the Python source (float byte counts) are modelled with
exact rational arithmetic; regular expressions are modelled by equivalent
deterministic matchers, derived pattern by pattern from the source regexes.
-/

namespace Bot

/-! ### Basic character helpers -/

/-- Python's `\s` / `str.strip` whitespace, restricted to ASCII. -/
def isSpacePy (c : Char) : Bool :=
  c = ' ' ∨ c = '\t' ∨ c = '\n' ∨ c = '\x0b' ∨ c = '\x0c' ∨ c = '\r'

/-- Python's `\d` (ASCII digits). -/
def isDigitPy (c : Char) : Bool :=
  '0' ≤ c ∧ c ≤ '9'

/-- The characters removed by `sanitize_filename` (regex `[\\/:*?"<>|\n\r]`). -/
def isIllegal (c : Char) : Bool :=
  c = '\\' ∨ c = '/' ∨ c = ':' ∨ c = '*' ∨ c = '?' ∨ c = '"' ∨
  c = '<' ∨ c = '>' ∨ c = '|' ∨ c = '\n' ∨ c = '\r'

/-- ASCII lower-casing, as used by `str.lower()` on the filenames involved. -/
def lowerChar (c : Char) : Char :=
  if 'A' ≤ c ∧ c ≤ 'Z' then Char.ofNat (c.toNat + 32) else c

def lowerStr (s : String) : String :=
  String.mk (s.data.map lowerChar)

/-! ### Decimal rendering of naturals (Python `str(n)` / `f"{n}"`) -/

def digitChar (d : Nat) : Char := Char.ofNat (48 + d)

/-- Fueled decimal rendering; `fuel = n + 1` always suffices. -/
def natReprAux : Nat → Nat → List Char
  | 0, _ => []
  | fuel + 1, n =>
    if n < 10 then [digitChar n]
    else natReprAux fuel (n / 10) ++ [digitChar (n % 10)]

def natReprD (n : Nat) : List Char := natReprAux (n + 1) n

def natReprS (n : Nat) : String := String.mk (natReprD n)

/-- Value of a decimal digit string (used to prove `natReprD` injective). -/
def valDigits : List Char → Nat
  | [] => 0
  | c :: cs => (c.toNat - 48) * 10 ^ cs.length + valDigits cs

/-! ### `pathlib.Path(...).stem` / `.suffix` model

`Path(p).name` is the last `/`-separated component (ignoring a trailing
slash); `.stem`/`.suffix` split that name at its last dot `i` provided
`0 < i < len(name) - 1`. -/

def lastComponentAux : List Char → List Char → List Char → List Char
  | [], cur, last => if cur = [] then last else cur
  | c :: cs, cur, last =>
    if c = '/' then lastComponentAux cs [] (if cur = [] then last else cur)
    else lastComponentAux cs (cur ++ [c]) last

def lastComponent (l : List Char) : List Char := lastComponentAux l [] []

/-- Split a path name into `(stem, suffix)` following `pathlib`: the cut is
at the last dot `i = name.length - 1 - j` provided `0 < i < len - 1`. -/
def splitExt (name : List Char) : List Char × List Char :=
  match name.reverse.findIdx? (· = '.') with
  | none => (name, [])
  | some j =>
    if 0 < name.length - 1 - j ∧ name.length - 1 - j < name.length - 1 then
      (name.take (name.length - 1 - j), name.drop (name.length - 1 - j))
    else (name, [])

def stemD (l : List Char) : List Char := (splitExt (lastComponent l)).1

def pathStem (s : String) : String := String.mk (stemD s.data)

/-! ### `sanitize_filename`

`re.sub(r'[\\/:*?"<>|\n\r]+', " ", name).strip()`: every maximal run of
illegal characters becomes one space, then surrounding whitespace is
trimmed. -/

def squashIllegalAux : Bool → List Char → List Char
  | _, [] => []
  | prevIll, c :: cs =>
    if isIllegal c then
      if prevIll then squashIllegalAux true cs
      else ' ' :: squashIllegalAux true cs
    else c :: squashIllegalAux false cs

/-- Python `str.strip()` (ASCII whitespace). -/
def pyStripL (l : List Char) : List Char :=
  ((l.dropWhile isSpacePy).reverse.dropWhile isSpacePy).reverse

def sanitize_filename (s : String) : String :=
  String.mk (pyStripL (squashIllegalAux false s.data))

/-! ### `str.format_map` with `SafeDict` (missing keys become `""`)

The model covers the fragment of Python's format mini-language that
`render_filename` and the caption renderer can meet without conversion
(`!r`), format-spec (`:...`) or attribute (`.attr`) syntax: literal text,
`\x7b\x7b`/`\x7d\x7d` escapes, plain keyword fields, and a single `[int]`
index into a field.  Positional fields, unterminated braces, non-integer
indexing of a string value and out-of-range indexing error, exactly as
the corresponding `str.format_map` calls raise. -/

inductive FmtErr where
  | singleOpen      -- ValueError: Single brace at end / unterminated field
  | singleClose     -- ValueError: single closing brace in literal text
  | positional      -- ValueError: format string contains positional fields
  | typeIndex       -- TypeError: string indices must be integers
  | indexError      -- IndexError: string index out of range
  | missingBracket  -- ValueError: missing closing bracket in field
  | unsupportedField  -- conversion / format-spec / attribute: outside the model
  | fuelOut           -- unreachable with fuel = length + 1
  deriving DecidableEq, Repr

inductive Seg where
  | lit (c : Char)
  | field (name : String) (index : Option Nat)
  deriving DecidableEq, Repr

/-- A keyword field name extends until one of `\x7d [ ! : . \x7b`. -/
def isNameChar (c : Char) : Bool :=
  ¬(c = '}' ∨ c = '[' ∨ c = '!' ∨ c = ':' ∨ c = '.' ∨ c = '{')

def digitsToNat (l : List Char) : Nat :=
  l.foldl (fun a c => a * 10 + (c.toNat - 48)) 0

def parseFmtAux : Nat → List Char → Except FmtErr (List Seg)
  | 0, _ => .error .fuelOut
  | fuel + 1, cs =>
    match cs with
    | [] => .ok []
    | '{' :: '{' :: rest => (Seg.lit '{' :: ·) <$> parseFmtAux fuel rest
    | '}' :: '}' :: rest => (Seg.lit '}' :: ·) <$> parseFmtAux fuel rest
    | '}' :: _ => .error .singleClose
    | '{' :: rest =>
      let p := rest.span isNameChar
      match p.2 with
      | '}' :: r3 =>
        if p.1.all isDigitPy then .error .positional
        else (Seg.field (String.mk p.1) none :: ·) <$> parseFmtAux fuel r3
      | '[' :: r3 =>
        let q := r3.span (fun c => ¬(c = ']'))
        match q.2 with
        | ']' :: '}' :: r5 =>
          if p.1.all isDigitPy then .error .positional
          else if q.1 ≠ [] ∧ q.1.all isDigitPy then
            (Seg.field (String.mk p.1) (some (digitsToNat q.1)) :: ·) <$>
              parseFmtAux fuel r5
          else .error .typeIndex
        | ']' :: _ => .error .unsupportedField
        | _ => .error .missingBracket
      | [] => .error .singleOpen
      | _ :: _ => .error .unsupportedField
    | c :: rest => (Seg.lit c :: ·) <$> parseFmtAux fuel rest

def parseFmt (s : String) : Except FmtErr (List Seg) :=
  parseFmtAux (s.data.length + 1) s.data

/-- First-match association lookup: the `SafeDict` read, `none` = missing. -/
def lookupVar (vars : List (String × String)) (k : String) : Option String :=
  (vars.find? (fun p => p.1 = k)).map (·.2)

/-- Model of `SafeDict.__missing__`: a missing key reads as the empty string. -/
def lookupD (vars : List (String × String)) (k : String) : String :=
  (lookupVar vars k).getD ""

def renderSegs (segs : List Seg) (vars : List (String × String)) :
    Except FmtErr (List Char) :=
  match segs with
  | [] => .ok []
  | Seg.lit c :: rest => (c :: ·) <$> renderSegs rest vars
  | Seg.field name none :: rest =>
    ((lookupD vars name).data ++ ·) <$> renderSegs rest vars
  | Seg.field name (some i) :: rest =>
    match (lookupD vars name).data.get? i with
    | some c => (c :: ·) <$> renderSegs rest vars
    | none => .error .indexError

def formatSegs (pr : Except FmtErr (List Seg))
    (vars : List (String × String)) : Except FmtErr String :=
  match pr with
  | .error e => .error e
  | .ok segs =>
    match renderSegs segs vars with
    | .error e => .error e
    | .ok l => .ok (String.mk l)

/-- Model of `fmt.format_map(SafeDict(vars))`. -/
def formatMap (fmt : String) (vars : List (String × String)) :
    Except FmtErr String :=
  formatSegs (parseFmt fmt) vars

/-- A segment list with no indexed fields. -/
def allPlain (segs : List Seg) : Bool :=
  segs.all (fun s => match s with
    | Seg.field _ (some _) => false
    | _ => true)

/-- Total rendering of plain segments: missing keys contribute `""`. -/
def plainRender (segs : List Seg) (vars : List (String × String)) : List Char :=
  match segs with
  | [] => []
  | Seg.lit c :: rest => c :: plainRender rest vars
  | Seg.field name _ :: rest => (lookupD vars name).data ++ plainRender rest vars

/-! ### `render_filename` -/

/-- Model of `core.lower().endswith(ext.lower())`. -/
def endsWithCI (core ext : String) : Bool :=
  (lowerStr ext).data.isSuffixOf (lowerStr core).data

def render_filename (fmt : String) (vars : List (String × String))
    (ext : String) : Except FmtErr String :=
  match formatMap fmt vars with
  | .error e => .error e
  | .ok core0 =>
    let core1 := sanitize_filename core0
    let core2 := if core1 = "" then "file" else core1
    .ok (if ext ≠ "" ∧ endsWithCI core2 ext = false then core2 ++ ext else core2)

/-! ### `extract_variables_from_filename`

Each `re.search` is modelled by a deterministic matcher tried at every
position left to right (leftmost match), derived from the backtracking
behaviour of the source regex on its pattern. -/

/-- Consume an exact literal, returning the rest. -/
def matchLit : List Char → List Char → Option (List Char)
  | [], rest => some rest
  | _ :: _, [] => none
  | c :: cs, d :: ds => if c = d then matchLit cs ds else none

/-- Model of `re.search`: try the matcher `f` at each suffix, leftmost first. -/
def searchAux (f : List Char → Option α) : List Char → Option α
  | [] => f []
  | c :: cs =>
    match f (c :: cs) with
    | some r => some r
    | none => searchAux f cs

/-- Group `(\d+)` anchored at the start of `r`: the greedy digit run,
failing on no digit. -/
def digitGroupAt (r : List Char) : Option (List Char) :=
  match r with
  | d :: _ => if isDigitPy d then some (r.takeWhile isDigitPy) else none
  | [] => none

/-- Pattern `[Ss](?:eason\s*)?(\d+)` at one position. -/
def matchSeasonAt (l : List Char) : Option (List Char) :=
  match l with
  | c :: rest =>
    if c = 'S' ∨ c = 's' then
      match matchLit ['e', 'a', 's', 'o', 'n'] rest with
      | some r2 => digitGroupAt (r2.dropWhile isSpacePy)
      | none => digitGroupAt rest
    else none
  | [] => none

/-- Pattern `[Ee](?:pisode\s*)?(\d+)` at one position. -/
def matchEpisodeAt (l : List Char) : Option (List Char) :=
  match l with
  | c :: rest =>
    if c = 'E' ∨ c = 'e' then
      match matchLit ['p', 'i', 's', 'o', 'd', 'e'] rest with
      | some r2 => digitGroupAt (r2.dropWhile isSpacePy)
      | none => digitGroupAt rest
    else none
  | [] => none

/-- Pattern `\[?(\d+p)\]?` at one position: the optional brackets never constrain the
match beyond allowing it to start on `[`; the group is the digit run plus
`p`. -/
def matchQualityAt (l : List Char) : Option (List Char) :=
  match l with
  | '[' :: rest =>
    if rest.takeWhile isDigitPy ≠ [] ∧
        (rest.dropWhile isDigitPy).head? = some 'p' then
      some (rest.takeWhile isDigitPy ++ ['p'])
    else none
  | rest =>
    if rest.takeWhile isDigitPy ≠ [] ∧
        (rest.dropWhile isDigitPy).head? = some 'p' then
      some (rest.takeWhile isDigitPy ++ ['p'])
    else none

/-- Second alternative `h\s*(\d+)` of the chapter regex. -/
def matchChapterH (rest : List Char) : Option (List Char) :=
  match rest with
  | h :: r2 =>
    if h = 'h' then digitGroupAt (r2.dropWhile isSpacePy) else none
  | [] => none

/-- Pattern `[Cc](?:hapter\s*|h\s*)(\d+)` at one position: the first alternative
`hapter\s*` is tried before falling back to `h\s*`. -/
def matchChapterAt (l : List Char) : Option (List Char) :=
  match l with
  | c :: rest =>
    if c = 'C' ∨ c = 'c' then
      match matchLit ['h', 'a', 'p', 't', 'e', 'r'] rest with
      | some r2 =>
        match digitGroupAt (r2.dropWhile isSpacePy) with
        | some g => some g
        | none => matchChapterH rest
      | none => matchChapterH rest
    else none
  | [] => none

/-- The alternation `(?:\s*[Ss]\d+|\s*\[|$)` of the title regex, at the
current boundary. -/
def titleAltAt (rest : List Char) : Bool :=
  match rest with
  | [] => true
  | _ =>
    let r := rest.dropWhile isSpacePy
    match r with
    | c :: d :: _ => ((c = 'S' ∨ c = 's') ∧ isDigitPy d) ∨ c = '['
    | [c] => c = '['
    | [] => false

/-- Title pattern `^([^[S]+?)(?:\s*[Ss]\d+|\s*\[|$)`: lazily grow the group (characters
other than `[` and `S`), stopping at the first boundary where the
alternation matches. -/
def titleGo (acc rest : List Char) : Option (List Char) :=
  if acc ≠ [] ∧ titleAltAt rest then some acc
  else
    match rest with
    | [] => none
    | c :: cs => if c = '[' ∨ c = 'S' then none else titleGo (acc ++ [c]) cs

/-- Model of the title cleanup `re.sub` on `\s*[-_]\s*$`: drop one trailing dash or underscore together with
the whitespace around it. -/
def stripTrailingSep (s : String) : String :=
  let r := s.data.reverse
  let r1 := r.dropWhile isSpacePy
  match r1 with
  | d :: r2 =>
    if d = '-' ∨ d = '_' then String.mk ((r2.dropWhile isSpacePy).reverse)
    else s
  | [] => s

def titleExtract (cs : List Char) : Option String :=
  match titleGo [] cs with
  | none => none
  | some g =>
    let t := stripTrailingSep (String.mk (pyStripL g))
    if t = "" then none else some t

def optEntry (k : String) (o : Option (List Char)) : List (String × String) :=
  match o with
  | some g => [(k, String.mk g)]
  | none => []

/-- The variable set extracted from a filename, in insertion order
season, episode, quality, chapter, title.  An empty filename yields the
empty set; the extension is removed first via `Path(filename).stem`. -/
def extract_variables_from_filename (filename : String) : List (String × String) :=
  if filename = "" then []
  else
    let cs := (pathStem filename).data
    optEntry "season" (searchAux matchSeasonAt cs) ++
    optEntry "episode" (searchAux matchEpisodeAt cs) ++
    optEntry "quality" (searchAux matchQualityAt cs) ++
    optEntry "chapter" (searchAux matchChapterAt cs) ++
    (match titleExtract cs with
     | some t => [("title", t)]
     | none => [])

/-! ### `human_size`

Bytes are naturals at every call site; `int(math.log(num_bytes, 1024))` is
modelled as the exact floor logarithm and the `f"{value:.Nf}"` float
formatting as exact rational rounding (round half to even, as Python). -/

def floorLog1024Aux : Nat → Nat → Nat
  | 0, _ => 0
  | fuel + 1, n => if n < 1024 then 0 else floorLog1024Aux fuel (n / 1024) + 1

def floorLog1024 (n : Nat) : Nat := floorLog1024Aux n n

/-- Round the exact rational `num / den` half to even (Python's format
rounding), as an integer computation. -/
def roundHalfEvenDiv (num den : Nat) : Nat :=
  let q := num / den
  let r := num % den
  if den < 2 * r then q + 1
  else if 2 * r < den then q
  else if q % 2 = 0 then q else q + 1

/-- Fixed-point formatting with `d` decimals of the non-negative exact rational `num / den`. -/
def formatFixed (d num den : Nat) : String :=
  let ds := natReprD (roundHalfEvenDiv (num * 10 ^ d) den)
  if d = 0 then String.mk ds
  else
    let p := List.replicate (d + 1 - ds.length) '0' ++ ds
    String.mk (p.take (p.length - d) ++ '.' :: p.drop (p.length - d))

def sizeUnits : List String := ["B", "KB", "MB", "GB", "TB"]

/-- Model of `human_size`.  The scaled value is the exact rational
`n / 1024 ^ power`; comparing it with 100 (resp. 10) is done as the exact
integer comparison `100 * 1024 ^ power ≤ n`. -/
def human_size (n : Nat) : String :=
  if n < 1 then natReprS n ++ " B"
  else
    let power := min (floorLog1024 n) (sizeUnits.length - 1)
    let den := 1024 ^ power
    let unit := sizeUnits.getD power "B"
    if 100 * den ≤ n then formatFixed 0 n den ++ " " ++ unit
    else if 10 * den ≤ n then formatFixed 1 n den ++ " " ++ unit
    else formatFixed 2 n den ++ " " ++ unit

/-! ### Collision-safe naming (`process_one`, Rename stage)

```
final_path = out_path
n = 1
while final_path.exists():
    stem = Path(out_path).stem
    final_path = out_path.with_name(f"{stem} ({n}){out_path.suffix}")
    n += 1
```
The filesystem is modelled as the list of existing paths; all probed paths
live in the fixed output directory, so paths are modelled by their final
component (rendered filenames contain no `/`). -/

def candidateD (out : String) (n : Nat) : List Char :=
  (splitExt out.data).1 ++ (' ' :: '(' :: (natReprD n ++ (')' :: (splitExt out.data).2)))

def candidate (out : String) (n : Nat) : String := String.mk (candidateD out n)

def probeAux (fs : List String) (out : String) : Nat → Nat → Option String
  | 0, _ => none
  | fuel + 1, n =>
    let c := candidate out n
    if c ∈ fs then probeAux fs out fuel (n + 1) else some c

/-- The rename-stage collision loop: `fs.length + 1` probes always find a
free candidate (the loop in the source runs until one is found). -/
def reservePath (fs : List String) (out : String) : String :=
  if out ∈ fs then (probeAux fs out (fs.length + 1) 1).getD out else out

/-- Iterated reservation: `k` successive reservations of the same desired path, each moving the
returned file into place (so it exists afterwards). -/
def reserveSeq (fs : List String) (out : String) : Nat → List String
  | 0 => []
  | k + 1 =>
    let p := reservePath fs out
    p :: reserveSeq (p :: fs) out k

/-! ### Per-user queue clearing (`cmd_clear`, non-admin branch)

```
while task_queue:
    msg = task_queue.popleft()
    if msg.from_user.id == user_id: user_files_removed += 1
    else: remaining_queue.append(msg)
task_queue.clear(); task_queue.extend(remaining_queue)
```
-/

structure QItem where
  fromUserId : Int
  msgId : Nat
  deriving DecidableEq, Repr

def clearLoop (q : List QItem) (u : Int) (removed : Nat) (acc : List QItem) :
    Nat × List QItem :=
  match q with
  | [] => (removed, acc)
  | x :: xs =>
    if x.fromUserId = u then clearLoop xs u (removed + 1) acc
    else clearLoop xs u removed (acc ++ [x])

/-- Model of `cmd_clear` for a non-admin user: returns (removed count, new queue). -/
def clear_for_user (q : List QItem) (u : Int) : Nat × List QItem :=
  clearLoop q u 0 []

/-! ### `apply_metadata` and the `process_one` pipeline trace

`apply_metadata` writes a sibling `meta_<name>` output with ffmpeg:
on exit code 0 it unlinks the original and renames the output over it,
returning the same path; on a nonzero exit code it unlinks any partial
output and returns the original; a raised error (modelled at the tool
invocation, before any output exists) is caught and the original returned.
`raisedOuter` models an exception around the `apply_metadata` call inside
`process_one` (caught there, pipeline continues).  The filesystem is the
list of existing paths. -/

inductive MetaOut where
  | toolOk
  | toolFail
  | raisedInner
  | raisedOuter
  deriving DecidableEq, Repr

def metaOutput (path : String) : String := "meta_" ++ path

def applyMetadata (fs : List String) (path : String) (out : MetaOut) :
    String × List String :=
  match out with
  | .toolOk => (path, path :: fs.filter (fun p => ¬(p = path ∨ p = metaOutput path)))
  | .toolFail => (path, fs.filter (fun p => ¬(p = metaOutput path)))
  | .raisedInner => (path, fs)
  | .raisedOuter => (path, fs)

/-- Per-attempt download outcome: success, `FloodWait`, or another error. -/
inductive DlOut where
  | ok
  | flood
  | err
  deriving DecidableEq, Repr

inductive Ev where
  | acq               -- semaphore slot acquired (`async with semaphore`)
  | sleepRetry        -- FloodWait: sleep then retry
  | dlFail            -- terminal download failure
  | renFail           -- terminal rename failure
  | metaTried         -- metadata stage entered
  | upload (p : String)  -- upload stage reached with this file
  | upFail            -- upload failed (terminal report)
  | okDone            -- terminal success report
  | rel               -- semaphore slot released
  deriving DecidableEq, Repr

structure Run where
  dls : List DlOut
  renameOk : Bool
  metaEnabled : Bool
  metaOut : MetaOut
  uploadOk : Bool
  path : String
  fs : List String

/-- The stages of `process_one` after a successful download. -/
def stagesAfterDownload (r : Run) : List Ev :=
  if r.renameOk then
    let p :=
      if r.metaEnabled then
        if r.metaOut = MetaOut.raisedOuter then r.path
        else (applyMetadata r.fs r.path r.metaOut).1
      else r.path
    (if r.metaEnabled then [Ev.metaTried] else []) ++
      (Ev.upload p :: (if r.uploadOk then [Ev.okDone] else [Ev.upFail]))
  else [Ev.renFail]

/-- Event trace of `process_one`, driven by the per-attempt download
outcomes.  On `FloodWait` the handler sleeps and re-invokes `process_one`
from the top while the enclosing `async with semaphore` block stays open:
its release happens only after the nested invocation returns.  An exhausted
outcome list behaves as a succeeding download. -/
def processOneGo (r : Run) : List DlOut → List Ev
  | DlOut.flood :: rest =>
    Ev.acq :: Ev.sleepRetry :: (processOneGo r rest ++ [Ev.rel])
  | DlOut.err :: _ => [Ev.acq, Ev.dlFail, Ev.rel]
  | DlOut.ok :: _ => Ev.acq :: (stagesAfterDownload r ++ [Ev.rel])
  | [] => Ev.acq :: (stagesAfterDownload r ++ [Ev.rel])

def processOne (r : Run) : List Ev := processOneGo r r.dls

/-! ### The concurrency-slot system (`asyncio.Semaphore(CONCURRENCY)`)

An interleaving semantics of any number of `process_one` workers sharing
the one global semaphore: a worker acquires a permit on entry, may acquire
a further permit for a nested FloodWait retry, and releases permits one by
one as the nested invocations return.  `avail` is the semaphore counter;
acquisition is only enabled while it is positive. -/

def CONCURRENCY : Nat := 5

inductive TaskSt where
  | idle                -- enqueued, pipeline not started
  | waiting             -- blocked in semaphore acquisition
  | holding (k : Nat)   -- inside `async with semaphore`, k permits held
  | finished
  deriving DecidableEq, Repr

structure SysState where
  avail : Nat
  tasks : List TaskSt

inductive SysStep : SysState → SysState → Prop
  | enqueue (a : Nat) (ts : List TaskSt) :
      SysStep ⟨a, ts⟩ ⟨a, ts ++ [TaskSt.idle]⟩
  | start (a : Nat) (ts : List TaskSt) (i : Nat) :
      ts.get? i = some TaskSt.idle →
      SysStep ⟨a, ts⟩ ⟨a, ts.set i TaskSt.waiting⟩
  | acquire (a : Nat) (ts : List TaskSt) (i : Nat) :
      ts.get? i = some TaskSt.waiting →
      SysStep ⟨a + 1, ts⟩ ⟨a, ts.set i (TaskSt.holding 1)⟩
  | reacquire (a : Nat) (ts : List TaskSt) (i k : Nat) :
      ts.get? i = some (TaskSt.holding k) →
      SysStep ⟨a + 1, ts⟩ ⟨a, ts.set i (TaskSt.holding (k + 1))⟩
  | releaseInner (a : Nat) (ts : List TaskSt) (i k : Nat) :
      ts.get? i = some (TaskSt.holding (k + 2)) →
      SysStep ⟨a, ts⟩ ⟨a + 1, ts.set i (TaskSt.holding (k + 1))⟩
  | releaseLast (a : Nat) (ts : List TaskSt) (i : Nat) :
      ts.get? i = some (TaskSt.holding 1) →
      SysStep ⟨a, ts⟩ ⟨a + 1, ts.set i TaskSt.finished⟩

/-- Initial state: full semaphore, `n` enqueued items. -/
def sysInit (n : Nat) : SysState :=
  ⟨CONCURRENCY, List.replicate n TaskSt.idle⟩

def heldOf : TaskSt → Nat
  | TaskSt.holding k => k
  | _ => 0

def isHolding : TaskSt → Bool
  | TaskSt.holding _ => true
  | _ => false

/-- Number of pipelines currently past the slot-acquired point. -/
def countHolding (ts : List TaskSt) : Nat :=
  (ts.filter isHolding).length

/-- Semaphore accounting invariant: available permits plus held permits is
the configured limit, and a held count is always positive. -/
def sysInv (s : SysState) : Prop :=
  s.avail + (s.tasks.map heldOf).sum = CONCURRENCY ∧
  ∀ t ∈ s.tasks, isHolding t = true → 1 ≤ heldOf t

/-! ## Theorems -/

/-- C3: on `"One Piece S01E12 [1080p] [Dual].mkv"` the extractor yields
exactly season `01`, episode `12`, quality `1080p`, title `One Piece`, and
rendering `"S{season} E{episode} - {title} [{quality}]"` with extension
`.mkv` over those variables yields `"S01 E12 - One Piece [1080p].mkv"`. -/
theorem one_piece_scenario :
    extract_variables_from_filename "One Piece S01E12 [1080p] [Dual].mkv" =
      [("season", "01"), ("episode", "12"), ("quality", "1080p"),
       ("title", "One Piece")] ∧
    render_filename "S{season} E{episode} - {title} [{quality}]"
        (extract_variables_from_filename "One Piece S01E12 [1080p] [Dual].mkv")
        ".mkv" =
      Except.ok "S01 E12 - One Piece [1080p].mkv" :=
  ⟨by decide, rfl⟩

theorem clearLoop_spec (u : Int) :
    ∀ (q : List QItem) (removed : Nat) (acc : List QItem),
      clearLoop q u removed acc =
        (removed + (q.filter (fun x => x.fromUserId = u)).length,
         acc ++ q.filter (fun x => ¬(x.fromUserId = u))) := by
  intro q
  induction q with
  | nil => intro removed acc; simp [clearLoop]
  | cons x xs ih =>
    intro removed acc
    by_cases h : x.fromUserId = u
    · simp [clearLoop, h, ih, List.filter_cons]
      omega
    · simp [clearLoop, h, ih, List.filter_cons]

/-- C8: the per-user clear removes exactly the items owned by `u`, reports
their number, and keeps the remaining items in their original relative
order (the remaining queue is the order-preserving filter). -/
theorem clear_for_user_spec :
    ∀ (q : List QItem) (u : Int),
      (clear_for_user q u).1 = (q.filter (fun x => x.fromUserId = u)).length ∧
      (clear_for_user q u).2 = q.filter (fun x => ¬(x.fromUserId = u)) := by
  intro q u
  simp [clear_for_user, clearLoop_spec u q 0 []]

/-- C2, counterexample: with a single `FloodWait` download outcome the trace
of `process_one` is `acq, sleepRetry, acq, …`; at the restart point (after
the sleep, before the nested re-acquisition) the worker has acquired one
slot and released none, so the retry is entered while the slot is still
held — not from the released, pre-slot-acquisition point the claim
states. -/
theorem floodwait_slot_not_released_counterexample :
    (processOne { dls := [DlOut.flood], renameOk := true, metaEnabled := false,
                  metaOut := MetaOut.toolFail, uploadOk := true,
                  path := "f.mkv", fs := [] }).take 3 =
      [Ev.acq, Ev.sleepRetry, Ev.acq] ∧
    ((processOne { dls := [DlOut.flood], renameOk := true, metaEnabled := false,
                   metaOut := MetaOut.toolFail, uploadOk := true,
                   path := "f.mkv", fs := [] }).take 2).count Ev.acq = 1 ∧
    ((processOne { dls := [DlOut.flood], renameOk := true, metaEnabled := false,
                   metaOut := MetaOut.toolFail, uploadOk := true,
                   path := "f.mkv", fs := [] }).take 2).count Ev.rel = 0 := by
  decide

theorem stagesAfterDownload_no_sem (r : Run) :
    Ev.acq ∉ stagesAfterDownload r ∧ Ev.rel ∉ stagesAfterDownload r := by
  rcases r with ⟨dls, ren, me, mo, up, path, fs⟩
  cases ren <;> cases me <;> cases up <;> simp [stagesAfterDownload]

/-- C2, amended: on a `FloodWait` the worker sleeps and then re-invokes
`process_one` from the top — the whole pipeline restarts, beginning with a
fresh slot acquisition — but without first releasing its current slot: the
slot held by the interrupted attempt is released only after the nested
invocation completes; every acquisition is eventually matched by a
release when the item's pipeline ends. -/
theorem floodwait_retry_restarts_pipeline :
    (∀ (r : Run) (rest : List DlOut),
        processOneGo r (DlOut.flood :: rest) =
          Ev.acq :: Ev.sleepRetry :: (processOneGo r rest ++ [Ev.rel])) ∧
    (∀ (r : Run) (ds : List DlOut), ∃ t, processOneGo r ds = Ev.acq :: t) ∧
    (∀ r : Run, (processOne r).count Ev.acq = (processOne r).count Ev.rel) := by
  refine ⟨fun r rest => rfl, fun r ds => ?_, fun r => ?_⟩
  · cases ds with
    | nil => exact ⟨_, rfl⟩
    | cons d rest => cases d <;> exact ⟨_, rfl⟩
  · show (processOneGo r r.dls).count Ev.acq = (processOneGo r r.dls).count Ev.rel
    induction r.dls with
    | nil =>
      have h := stagesAfterDownload_no_sem r
      simp [processOneGo, List.count_cons, List.count_append,
        List.count_eq_zero.mpr h.1, List.count_eq_zero.mpr h.2]
    | cons d rest ih =>
      cases d with
      | ok =>
        have h := stagesAfterDownload_no_sem r
        simp [processOneGo, List.count_cons, List.count_append,
          List.count_eq_zero.mpr h.1, List.count_eq_zero.mpr h.2]
      | flood =>
        simp [processOneGo, List.count_cons, List.count_append, ih]
      | err => simp [processOneGo, List.count_cons]

theorem upload_path_eq (r : Run) (h : r.renameOk = true) :
    Ev.upload r.path ∈ stagesAfterDownload r := by
  rcases r with ⟨dls, ren, me, mo, up, path, fs⟩
  simp only at h
  subst h
  cases me <;> cases up <;> cases mo <;> simp [stagesAfterDownload, applyMetadata]

theorem upload_mem_go (r : Run) (h : r.renameOk = true) :
    ∀ ds : List DlOut, (∀ d ∈ ds, d ≠ DlOut.err) →
      Ev.upload r.path ∈ processOneGo r ds := by
  intro ds
  induction ds with
  | nil =>
    intro _
    simp only [processOneGo, List.mem_cons, List.mem_append]
    exact Or.inr (Or.inl (upload_path_eq r h))
  | cons d rest ih =>
    intro hds
    cases d with
    | ok =>
      simp only [processOneGo, List.mem_cons, List.mem_append]
      exact Or.inr (Or.inl (upload_path_eq r h))
    | flood =>
      simp only [processOneGo, List.mem_cons, List.mem_append]
      exact Or.inr (Or.inr (Or.inl (ih (fun d hd => hds d (List.mem_cons_of_mem _ hd)))))
    | err => exact absurd rfl (hds DlOut.err (List.mem_cons_self _ _))

/-- C7: metadata rewriting is best-effort.  On tool failure or a raised
error `apply_metadata` returns the original path unchanged and any partial
`meta_…` output is gone afterwards, and for every run whose download and
rename succeed — whatever the metadata outcome — the pipeline still
reaches the upload stage with the pre-rewrite file. -/
theorem metadata_best_effort :
    (∀ (fs : List String) (path : String) (out : MetaOut),
        out ≠ MetaOut.toolOk → (applyMetadata fs path out).1 = path) ∧
    (∀ (fs : List String) (path : String),
        metaOutput path ∉ (applyMetadata fs path MetaOut.toolFail).2) ∧
    (∀ r : Run, r.renameOk = true → (∀ d ∈ r.dls, d ≠ DlOut.err) →
        Ev.upload r.path ∈ processOne r) := by
  refine ⟨?_, ?_, ?_⟩
  · intro fs path out _
    cases out <;> simp [applyMetadata]
  · intro fs path
    simp [applyMetadata]
  · intro r h hds
    exact upload_mem_go r h r.dls hds

/-- C7 witness: a concrete failing-rewrite run still uploads the
pre-rewrite file, returns the original path and leaves no partial
output. -/
theorem metadata_best_effort_witness :
    (applyMetadata ["f.mkv", "meta_f.mkv"] "f.mkv" MetaOut.toolFail).1 = "f.mkv" ∧
    metaOutput "f.mkv" ∉
      (applyMetadata ["f.mkv", "meta_f.mkv"] "f.mkv" MetaOut.toolFail).2 ∧
    Ev.upload "f.mkv" ∈
      processOne { dls := [DlOut.ok], renameOk := true, metaEnabled := true,
                   metaOut := MetaOut.toolFail, uploadOk := true,
                   path := "f.mkv", fs := ["f.mkv", "meta_f.mkv"] } :=
  ⟨metadata_best_effort.1 ["f.mkv", "meta_f.mkv"] "f.mkv" MetaOut.toolFail
      (by decide),
   metadata_best_effort.2.1 ["f.mkv", "meta_f.mkv"] "f.mkv",
   metadata_best_effort.2.2
      { dls := [DlOut.ok], renameOk := true, metaEnabled := true,
        metaOut := MetaOut.toolFail, uploadOk := true,
        path := "f.mkv", fs := ["f.mkv", "meta_f.mkv"] }
      rfl (by decide)⟩

/-- C9: byte counts are rendered with units B/KB/MB/GB/TB, using 0 decimal
places when the scaled value `n / 1024 ^ power` is at least 100 (the exact
integer comparison `100 * 1024 ^ power ≤ n`), 1 decimal when at least 10,
and 2 decimals below 10; in particular `human_size 0 = "0 B"` and
`human_size 1536 = "1.50 KB"`. -/
theorem human_size_spec :
    human_size 0 = "0 B" ∧
    human_size 1536 = "1.50 KB" ∧
    ∀ n : Nat, 1 ≤ n →
      human_size n =
        (if 100 * 1024 ^ min (floorLog1024 n) 4 ≤ n then
          formatFixed 0 n (1024 ^ min (floorLog1024 n) 4)
        else if 10 * 1024 ^ min (floorLog1024 n) 4 ≤ n then
          formatFixed 1 n (1024 ^ min (floorLog1024 n) 4)
        else formatFixed 2 n (1024 ^ min (floorLog1024 n) 4)) ++
          " " ++ sizeUnits.getD (min (floorLog1024 n) 4) "B" := by
  refine ⟨by decide, by decide, ?_⟩
  intro n hn
  unfold human_size
  rw [if_neg (by omega)]
  simp only [show sizeUnits.length - 1 = 4 from rfl]
  split_ifs <;> rfl

/-- C9 witness: the decimal-places rule applied at `n = 1536`. -/
theorem human_size_spec_witness :
    human_size 1536 =
      (if 100 * 1024 ^ min (floorLog1024 1536) 4 ≤ 1536 then
        formatFixed 0 1536 (1024 ^ min (floorLog1024 1536) 4)
      else if 10 * 1024 ^ min (floorLog1024 1536) 4 ≤ 1536 then
        formatFixed 1 1536 (1024 ^ min (floorLog1024 1536) 4)
      else formatFixed 2 1536 (1024 ^ min (floorLog1024 1536) 4)) ++
        " " ++ sizeUnits.getD (min (floorLog1024 1536) 4) "B" :=
  human_size_spec.2.2 1536 (by omega)

theorem map_sum_set :
    ∀ (ts : List TaskSt) (i : Nat) (old v : TaskSt), ts.get? i = some old →
      ((ts.set i v).map heldOf).sum + heldOf old =
        (ts.map heldOf).sum + heldOf v := by
  intro ts
  induction ts with
  | nil => intro i old v h; simp at h
  | cons t ts ih =>
    intro i old v h
    cases i with
    | zero =>
      simp only [List.get?_cons_zero, Option.some.injEq] at h
      subst h
      simp [List.set_cons_zero]
      omega
    | succ j =>
      simp only [List.get?_cons_succ] at h
      have := ih j old v h
      simp only [List.set_cons_succ, List.map_cons, List.sum_cons]
      omega

theorem sysInv_step {s s' : SysState} (h : sysInv s) (hs : SysStep s s') :
    sysInv s' := by
  obtain ⟨hsum, hpos⟩ := h
  cases hs with
  | enqueue a ts =>
    refine ⟨?_, ?_⟩
    · simp only [List.map_append, List.sum_append] at *
      simp [heldOf]
      simpa using hsum
    · intro t ht
      rcases List.mem_append.mp ht with h1 | h2
      · exact hpos t h1
      · intro hh
        simp only [List.mem_singleton] at h2
        subst h2
        simp [isHolding] at hh
  | start a ts i hget =>
    have hs := map_sum_set ts i _ TaskSt.waiting hget
    refine ⟨?_, ?_⟩
    · simp only [heldOf] at hs ⊢
      simp only at hsum ⊢
      omega
    · intro t ht hh
      rcases List.mem_or_eq_of_mem_set ht with h1 | h2
      · exact hpos t h1 hh
      · subst h2; simp [isHolding] at hh
  | acquire a ts i hget =>
    have hs := map_sum_set ts i _ (TaskSt.holding 1) hget
    refine ⟨?_, ?_⟩
    · simp only [heldOf] at hs ⊢
      simp only at hsum ⊢
      omega
    · intro t ht hh
      rcases List.mem_or_eq_of_mem_set ht with h1 | h2
      · exact hpos t h1 hh
      · subst h2; simp [heldOf]
  | reacquire a ts i k hget =>
    have hs := map_sum_set ts i _ (TaskSt.holding (k + 1)) hget
    refine ⟨?_, ?_⟩
    · simp only [heldOf] at hs ⊢
      simp only at hsum ⊢
      omega
    · intro t ht hh
      rcases List.mem_or_eq_of_mem_set ht with h1 | h2
      · exact hpos t h1 hh
      · subst h2; simp [heldOf]
  | releaseInner a ts i k hget =>
    have hs := map_sum_set ts i _ (TaskSt.holding (k + 1)) hget
    refine ⟨?_, ?_⟩
    · simp only [heldOf] at hs ⊢
      simp only at hsum ⊢
      omega
    · intro t ht hh
      rcases List.mem_or_eq_of_mem_set ht with h1 | h2
      · exact hpos t h1 hh
      · subst h2; simp [heldOf]
  | releaseLast a ts i hget =>
    have hs := map_sum_set ts i _ TaskSt.finished hget
    refine ⟨?_, ?_⟩
    · simp only [heldOf] at hs ⊢
      simp only at hsum ⊢
      omega
    · intro t ht hh
      rcases List.mem_or_eq_of_mem_set ht with h1 | h2
      · exact hpos t h1 hh
      · subst h2; simp [isHolding] at hh

theorem count_le_sum :
    ∀ ts : List TaskSt, (∀ t ∈ ts, isHolding t = true → 1 ≤ heldOf t) →
      countHolding ts ≤ (ts.map heldOf).sum := by
  intro ts
  induction ts with
  | nil => intro _; simp [countHolding]
  | cons t ts ih =>
    intro h
    have hts := ih (fun x hx => h x (List.mem_cons_of_mem _ hx))
    by_cases hh : isHolding t = true
    · have h1 := h t (List.mem_cons_self _ _) hh
      simp only [countHolding, List.filter_cons, hh, if_pos, List.length_cons,
        List.map_cons, List.sum_cons]
      simp only [countHolding] at hts
      omega
    · simp only [countHolding, List.filter_cons, List.map_cons, List.sum_cons]
      rw [if_neg (by simpa using hh)]
      simp only [countHolding] at hts
      omega

/-- C1: in every execution — any number of enqueued items, any
interleaving of slot acquisitions, FloodWait re-acquisitions and
releases — the number of pipelines that have acquired a concurrency slot
and not yet released it never exceeds `CONCURRENCY = 5`. -/
theorem semaphore_bound :
    ∀ (n : Nat) (s : SysState),
      Relation.ReflTransGen SysStep (sysInit n) s →
      countHolding s.tasks ≤ CONCURRENCY := by
  intro n s h
  have hinv : sysInv s := by
    induction h with
    | refl =>
      refine ⟨?_, ?_⟩
      · simp [sysInit, List.map_replicate, heldOf]
      · intro t ht hh
        rw [List.eq_of_mem_replicate ht] at hh
        simp [isHolding] at hh
    | tail h1 h2 ih => exact sysInv_step ih h2
  obtain ⟨hsum, hpos⟩ := hinv
  have := count_le_sum s.tasks hpos
  omega

/-- C1 witness: a concrete reachable state — one task started and holding
a slot — satisfies the bound. -/
theorem semaphore_bound_witness :
    countHolding (((List.replicate 1 TaskSt.idle).set 0 TaskSt.waiting).set 0
      (TaskSt.holding 1)) ≤ CONCURRENCY :=
  semaphore_bound 1
    ⟨4, ((List.replicate 1 TaskSt.idle).set 0 TaskSt.waiting).set 0
      (TaskSt.holding 1)⟩
    (Relation.ReflTransGen.tail
      (Relation.ReflTransGen.tail Relation.ReflTransGen.refl
        (SysStep.start 5 (List.replicate 1 TaskSt.idle) 0 rfl))
      (SysStep.acquire 4 ((List.replicate 1 TaskSt.idle).set 0 TaskSt.waiting)
        0 rfl))

theorem lookupD_cons_absent (vars : List (String × String)) (k : String)
    (h : lookupVar vars k = none) (name : String) :
    lookupD ((k, "") :: vars) name = lookupD vars name := by
  by_cases hn : name = k
  · subst hn
    unfold lookupD lookupVar
    rw [List.find?_cons_of_pos _ (by simp)]
    unfold lookupVar at h
    rw [h]
    rfl
  · unfold lookupD lookupVar
    rw [List.find?_cons_of_neg _ (by simp [Ne.symm hn])]

theorem renderSegs_cons_absent (vars : List (String × String)) (k : String)
    (h : lookupVar vars k = none) :
    ∀ segs, renderSegs segs ((k, "") :: vars) = renderSegs segs vars := by
  intro segs
  induction segs with
  | nil => rfl
  | cons s rest ih =>
    cases s with
    | lit c => simp only [renderSegs, ih]
    | field name idx =>
      cases idx with
      | none => simp only [renderSegs, lookupD_cons_absent vars k h name, ih]
      | some i => simp only [renderSegs, lookupD_cons_absent vars k h name, ih]

theorem renderSegs_plain (vars : List (String × String)) :
    ∀ segs, allPlain segs = true →
      renderSegs segs vars = Except.ok (plainRender segs vars) := by
  intro segs
  induction segs with
  | nil => intro _; rfl
  | cons s rest ih =>
    intro h
    simp only [allPlain, List.all_cons, Bool.and_eq_true] at h
    obtain ⟨h1, h2⟩ := h
    have ih2 := ih h2
    cases s with
    | lit c => simp only [renderSegs, plainRender, ih2]; rfl
    | field name idx =>
      cases idx with
      | none => simp only [renderSegs, plainRender, ih2]; rfl
      | some i => simp at h1

/-- C4, counterexample: rendering can raise on a placeholder whose key is
absent.  The template `"{x[0]}"` with an empty variable set substitutes
`""` for the missing key `x` and then indexes into it, raising IndexError
(string index out of range) — in `format_map` and in `render_filename`
alike — so the claim does not hold for every template string. -/
theorem format_absent_key_raises_counterexample :
    formatMap "{x[0]}" [] = Except.error FmtErr.indexError ∧
    render_filename "{x[0]}" [] ".mkv" = Except.error FmtErr.indexError :=
  ⟨rfl, rfl⟩

/-- C4, amended: an absent key renders exactly as if it were present with
the empty-string value — the lookup itself never errors — and for every
template whose placeholders are plain `\x7bname\x7d` fields (no indexing),
rendering never raises once the template parses: every absent key
substitutes the empty string and no placeholder text remains.  (A
placeholder that indexes a missing key still raises, as the
counterexample shows.) -/
theorem format_absent_key_empty :
    (∀ (tmpl : String) (vars : List (String × String)) (k : String),
        lookupVar vars k = none →
        formatMap tmpl vars = formatMap tmpl ((k, "") :: vars)) ∧
    (∀ (tmpl : String) (segs : List Seg) (vars : List (String × String)),
        parseFmt tmpl = Except.ok segs → allPlain segs = true →
        formatMap tmpl vars = Except.ok (String.mk (plainRender segs vars))) := by
  constructor
  · intro tmpl vars k h
    unfold formatMap
    cases parseFmt tmpl with
    | error e => rfl
    | ok segs =>
      show formatSegs (Except.ok segs) vars = formatSegs (Except.ok segs) _
      simp only [formatSegs, renderSegs_cons_absent vars k h segs]
  · intro tmpl segs vars hp hpl
    unfold formatMap
    rw [hp]
    show (match renderSegs segs vars with
          | Except.error e => Except.error e
          | Except.ok l => Except.ok (String.mk l)) = _
    rw [renderSegs_plain vars segs hpl]

/-- C4 witness: on `"hi {x}"` with `x` absent, rendering equals rendering
with `x ↦ ""` and produces `"hi "`. -/
theorem format_absent_key_empty_witness :
    formatMap "hi {x}" [("y", "1")] =
      formatMap "hi {x}" [("x", ""), ("y", "1")] ∧
    formatMap "hi {x}" [("y", "1")] = Except.ok "hi " :=
  ⟨format_absent_key_empty.1 "hi {x}" [("y", "1")] "x" rfl,
   format_absent_key_empty.2 "hi {x}"
     [Seg.lit 'h', Seg.lit 'i', Seg.lit ' ', Seg.field "x" none] [("y", "1")]
     rfl rfl⟩

theorem mem_squash :
    ∀ (b : Bool) (l : List Char) (c : Char),
      c ∈ squashIllegalAux b l → isIllegal c = false := by
  intro b l
  induction l generalizing b with
  | nil => intro c hc; simp [squashIllegalAux] at hc
  | cons d ds ih =>
    intro c hc
    cases hd : isIllegal d with
    | true =>
      cases b with
      | true =>
        simp only [squashIllegalAux, hd] at hc
        exact ih true c hc
      | false =>
        simp [squashIllegalAux, hd] at hc
        rcases hc with rfl | hc
        · decide
        · exact ih true c hc
    | false =>
      simp [squashIllegalAux, hd] at hc
      rcases hc with rfl | hc
      · exact hd
      · exact ih false c hc

theorem mem_pyStripL (l : List Char) (c : Char) (h : c ∈ pyStripL l) :
    c ∈ l := by
  unfold pyStripL at h
  rw [List.mem_reverse] at h
  have h2 := (List.dropWhile_sublist (l := (l.dropWhile isSpacePy).reverse)
    (p := isSpacePy)).subset h
  rw [List.mem_reverse] at h2
  exact (List.dropWhile_sublist (l := l) (p := isSpacePy)).subset h2

theorem mem_sanitize (s : String) (c : Char)
    (h : c ∈ (sanitize_filename s).data) : isIllegal c = false :=
  mem_squash false s.data c (mem_pyStripL _ c h)

/-- C5, counterexample: the extension is appended after sanitization, so
an extension argument containing an illegal character leaks it into the
returned filename: `render_filename "a" [] "/" = "a/"`. -/
theorem render_no_illegal_counterexample :
    render_filename "a" [] "/" = Except.ok "a/" ∧
    '/' ∈ "a/".data ∧ isIllegal '/' = true :=
  ⟨rfl, by decide, rfl⟩

/-- C5, amended: for every template and variable set, and every extension
that itself contains none of the illegal characters
`\ / : * ? " < > | \n \r` (as every real `.xxx` media extension does), the
filename returned by `render_filename` contains none of them. -/
theorem render_filename_no_illegal :
    ∀ (fmt : String) (vars : List (String × String)) (ext out : String),
      (∀ c ∈ ext.data, isIllegal c = false) →
      render_filename fmt vars ext = Except.ok out →
      ∀ c ∈ out.data, isIllegal c = false := by
  intro fmt vars ext out hext hr c hc
  unfold render_filename at hr
  cases hf : formatMap fmt vars with
  | error e => rw [hf] at hr; exact absurd hr (by simp)
  | ok core0 =>
    rw [hf] at hr
    simp only [Except.ok.injEq] at hr
    subst hr
    have hfile : ∀ c ∈ ("file" : String).data, isIllegal c = false := by decide
    set core2 := if sanitize_filename core0 = "" then "file"
      else sanitize_filename core0 with hc2
    have hcore2 : ∀ c ∈ core2.data, isIllegal c = false := by
      intro c hc
      rw [hc2] at hc
      split at hc
      · exact hfile c hc
      · exact mem_sanitize _ _ hc
    split at hc
    · rw [String.data_append, List.mem_append] at hc
      rcases hc with hc | hc
      · exact hcore2 c hc
      · exact hext c hc
    · exact hcore2 c hc

/-- C5 witness: a variable value containing `:` is sanitized away and the
clean `.mkv` extension adds nothing illegal. -/
theorem render_filename_no_illegal_witness :
    render_filename "{title}" [("title", "a:b")] ".mkv" =
      Except.ok "a b.mkv" ∧
    isIllegal 'b' = false :=
  ⟨rfl,
   render_filename_no_illegal "{title}" [("title", "a:b")] ".mkv" "a b.mkv"
     (by decide) rfl 'b' (by decide)⟩

theorem searchAux_some {α : Type} (f : List Char → Option α) :
    ∀ (l : List Char) (g : α), searchAux f l = some g → ∃ l2, f l2 = some g := by
  intro l
  induction l with
  | nil => intro g h; exact ⟨[], by simpa [searchAux] using h⟩
  | cons c cs ih =>
    intro g h
    simp only [searchAux] at h
    cases hf : f (c :: cs) with
    | some r =>
      rw [hf] at h
      simp only [Option.some.injEq] at h
      subst h
      exact ⟨c :: cs, hf⟩
    | none => rw [hf] at h; exact ih g h

theorem takeWhile_digit_ne_nil (d : Char) (tl : List Char)
    (hd : isDigitPy d = true) : (d :: tl).takeWhile isDigitPy ≠ [] := by
  simp [List.takeWhile_cons, hd]

theorem digitGroupAt_ne_nil :
    ∀ (r g : List Char), digitGroupAt r = some g → g ≠ [] := by
  intro r g h
  cases r with
  | nil => simp [digitGroupAt] at h
  | cons d tl =>
    simp only [digitGroupAt] at h
    split at h
    · simp only [Option.some.injEq] at h
      subst h
      rename_i hd
      exact takeWhile_digit_ne_nil d tl hd
    · exact absurd h (by simp)

theorem matchSeasonAt_ne_nil :
    ∀ (l g : List Char), matchSeasonAt l = some g → g ≠ [] := by
  intro l g h
  cases l with
  | nil => simp [matchSeasonAt] at h
  | cons c rest =>
    simp only [matchSeasonAt] at h
    split at h
    · cases hm : matchLit ['e', 'a', 's', 'o', 'n'] rest with
      | some r2 => rw [hm] at h; exact digitGroupAt_ne_nil _ g h
      | none => rw [hm] at h; exact digitGroupAt_ne_nil _ g h
    · exact absurd h (by simp)

theorem matchEpisodeAt_ne_nil :
    ∀ (l g : List Char), matchEpisodeAt l = some g → g ≠ [] := by
  intro l g h
  cases l with
  | nil => simp [matchEpisodeAt] at h
  | cons c rest =>
    simp only [matchEpisodeAt] at h
    split at h
    · cases hm : matchLit ['p', 'i', 's', 'o', 'd', 'e'] rest with
      | some r2 => rw [hm] at h; exact digitGroupAt_ne_nil _ g h
      | none => rw [hm] at h; exact digitGroupAt_ne_nil _ g h
    · exact absurd h (by simp)

theorem matchQualityAt_ne_nil :
    ∀ (l g : List Char), matchQualityAt l = some g → g ≠ [] := by
  intro l g h
  unfold matchQualityAt at h
  split at h <;>
    (split at h
     · simp only [Option.some.injEq] at h
       subst h
       simp
     · exact absurd h (by simp))

theorem matchChapterH_ne_nil :
    ∀ (l g : List Char), matchChapterH l = some g → g ≠ [] := by
  intro l g h
  cases l with
  | nil => simp [matchChapterH] at h
  | cons c rest =>
    simp only [matchChapterH] at h
    split at h
    · exact digitGroupAt_ne_nil _ g h
    · exact absurd h (by simp)

theorem matchChapterAt_ne_nil :
    ∀ (l g : List Char), matchChapterAt l = some g → g ≠ [] := by
  intro l g h
  cases l with
  | nil => simp [matchChapterAt] at h
  | cons c rest =>
    simp only [matchChapterAt] at h
    split at h
    · split at h
      · split at h
        · rename_i g2 hd
          simp only [Option.some.injEq] at h
          subst h
          exact digitGroupAt_ne_nil _ g2 hd
        · exact matchChapterH_ne_nil rest g h
      · exact matchChapterH_ne_nil rest g h
    · exact absurd h (by simp)

theorem mem_optEntry (k2 : String) (o : Option (List Char)) (k v : String)
    (h : (k, v) ∈ optEntry k2 o) : ∃ g, o = some g ∧ v = String.mk g := by
  cases o with
  | none => simp [optEntry] at h
  | some g =>
    simp only [optEntry, List.mem_singleton, Prod.mk.injEq] at h
    exact ⟨g, rfl, h.2⟩

theorem length_pos_of_ne_nil {g : List Char} (hg : g ≠ []) :
    1 ≤ (String.mk g).length := by
  cases g with
  | nil => exact absurd rfl hg
  | cons c cs => simp [String.length]

theorem length_pos_of_ne_empty (s : String) (h : ¬s = "") : 1 ≤ s.length := by
  rcases s with ⟨l⟩
  cases l with
  | nil => exact absurd rfl h
  | cons c cs => simp [String.length]

theorem titleExtract_pos (cs : List Char) (t : String)
    (h : titleExtract cs = some t) : 1 ≤ t.length := by
  unfold titleExtract at h
  cases hg : titleGo [] cs with
  | none => rw [hg] at h; exact absurd h (by simp)
  | some g =>
    rw [hg] at h
    have h2 : (if stripTrailingSep (String.mk (pyStripL g)) = "" then none
        else some (stripTrailingSep (String.mk (pyStripL g)))) = some t := h
    split at h2
    · exact absurd h2 (by simp)
    · rename_i hne
      simp only [Option.some.injEq] at h2
      subst h2
      exact length_pos_of_ne_empty _ hne

/-- C10: every value in the extracted variable set is a non-empty string —
each present key (season, episode, quality, chapter, title) maps to a
string of length at least 1; in particular a blank title is omitted rather
than inserted empty. -/
theorem extract_values_nonempty :
    ∀ (fn k v : String), (k, v) ∈ extract_variables_from_filename fn →
      1 ≤ v.length := by
  intro fn k v h
  unfold extract_variables_from_filename at h
  split at h
  · simp at h
  · rcases List.mem_append.mp h with h | htitle
    rcases List.mem_append.mp h with h | hchap
    rcases List.mem_append.mp h with h | hqual
    rcases List.mem_append.mp h with hseas | hepis
    · obtain ⟨g, hg, hv⟩ := mem_optEntry _ _ _ _ hseas
      obtain ⟨l2, hl2⟩ := searchAux_some _ _ _ hg
      subst hv
      exact length_pos_of_ne_nil (matchSeasonAt_ne_nil l2 g hl2)
    · obtain ⟨g, hg, hv⟩ := mem_optEntry _ _ _ _ hepis
      obtain ⟨l2, hl2⟩ := searchAux_some _ _ _ hg
      subst hv
      exact length_pos_of_ne_nil (matchEpisodeAt_ne_nil l2 g hl2)
    · obtain ⟨g, hg, hv⟩ := mem_optEntry _ _ _ _ hqual
      obtain ⟨l2, hl2⟩ := searchAux_some _ _ _ hg
      subst hv
      exact length_pos_of_ne_nil (matchQualityAt_ne_nil l2 g hl2)
    · obtain ⟨g, hg, hv⟩ := mem_optEntry _ _ _ _ hchap
      obtain ⟨l2, hl2⟩ := searchAux_some _ _ _ hg
      subst hv
      exact length_pos_of_ne_nil (matchChapterAt_ne_nil l2 g hl2)
    · revert htitle
      cases ht : titleExtract (pathStem fn).data with
      | none => intro htitle; simp at htitle
      | some t =>
        intro htitle
        simp only [List.mem_singleton, Prod.mk.injEq] at htitle
        obtain ⟨-, rfl⟩ := htitle
        exact titleExtract_pos _ _ ht

/-- C10 witness: the season value extracted from the scenario filename is
non-empty. -/
theorem extract_values_nonempty_witness :
    1 ≤ ("01" : String).length :=
  extract_values_nonempty "One Piece S01E12 [1080p] [Dual].mkv" "season" "01"
    (by decide)

theorem natReprD_ne_nil (n : Nat) : natReprD n ≠ [] := by
  unfold natReprD natReprAux
  split <;> simp

theorem digitChar_toNat (d : Nat) (h : d < 10) :
    (digitChar d).toNat = 48 + d := by
  interval_cases d <;> decide

theorem valDigits_append (l : List Char) (c : Char) :
    valDigits (l ++ [c]) = 10 * valDigits l + (c.toNat - 48) := by
  induction l with
  | nil => simp [valDigits]
  | cons d ds ih =>
    simp only [List.cons_append, valDigits, ih, List.append_eq,
      List.length_append, List.length_cons, List.length_nil]
    ring

theorem valDigits_natReprAux :
    ∀ (fuel n : Nat), n < fuel → valDigits (natReprAux fuel n) = n := by
  intro fuel
  induction fuel with
  | zero => intro n h; omega
  | succ f ih =>
    intro n h
    unfold natReprAux
    split
    · rename_i h10
      simp [valDigits, digitChar_toNat n h10]
    · rename_i h10
      have hd : n / 10 < n := Nat.div_lt_self (by omega) (by omega)
      rw [valDigits_append, ih (n / 10) (by omega),
        digitChar_toNat (n % 10) (Nat.mod_lt _ (by omega))]
      omega

theorem natReprD_inj {m n : Nat} (h : natReprD m = natReprD n) : m = n := by
  have hm := valDigits_natReprAux (m + 1) m (by omega)
  have hn := valDigits_natReprAux (n + 1) n (by omega)
  unfold natReprD at h
  rw [h, hn] at hm
  exact hm.symm

theorem candidate_inj (out : String) {a b : Nat}
    (h : candidate out a = candidate out b) : a = b := by
  have h2 : candidateD out a = candidateD out b := congrArg String.data h
  unfold candidateD at h2
  have h3 := List.append_cancel_left h2
  simp only [List.cons.injEq, true_and] at h3
  exact natReprD_inj (List.append_cancel_right h3)

theorem splitExt_join (l : List Char) :
    (splitExt l).1 ++ (splitExt l).2 = l := by
  unfold splitExt
  split
  · simp
  · split
    · simp [List.take_append_drop]
    · simp

theorem candidate_ne_out (out : String) (n : Nat) : candidate out n ≠ out := by
  intro h
  have h2 : candidateD out n = out.data := congrArg String.data h
  have hlen := congrArg List.length h2
  have hjoin := congrArg List.length (splitExt_join out.data)
  simp only [candidateD, List.length_append, List.length_cons] at hlen hjoin
  have hpos : 1 ≤ (natReprD n).length :=
    List.length_pos.mpr (natReprD_ne_nil n)
  omega

theorem candidates_bound (fs : List String) (out : String) (a b : Nat)
    (h : ∀ m, a ≤ m → m < b → candidate out m ∈ fs) :
    b - a ≤ fs.length := by
  have hsub : (Finset.Ico a b).image (candidate out) ⊆ fs.toFinset := by
    intro x hx
    rw [Finset.mem_image] at hx
    obtain ⟨m, hm, rfl⟩ := hx
    rw [Finset.mem_Ico] at hm
    rw [List.mem_toFinset]
    exact h m hm.1 hm.2
  have hcard := Finset.card_le_card hsub
  rw [Finset.card_image_of_injective _ (fun x y hxy => candidate_inj out hxy),
    Nat.card_Ico] at hcard
  exact le_trans hcard (List.toFinset_card_le fs)

theorem probeAux_spec (fs : List String) (out : String) :
    ∀ (fuel start n : Nat), start ≤ n → n < start + fuel →
      candidate out n ∉ fs →
      (∀ m, start ≤ m → m < n → candidate out m ∈ fs) →
      probeAux fs out fuel start = some (candidate out n) := by
  intro fuel
  induction fuel with
  | zero => intro start n h1 h2 h3 h4; omega
  | succ f ih =>
    intro start n h1 h2 h3 h4
    simp only [probeAux]
    by_cases hs : start = n
    · subst hs
      rw [if_neg h3]
    · have hst : start < n := by omega
      rw [if_pos (h4 start le_rfl hst)]
      exact ih (start + 1) n (by omega) (by omega) h3
        (fun m hm1 hm2 => h4 m (by omega) hm2)

theorem reserveSeq_go (out : String) :
    ∀ (k j : Nat) (fs : List String), 1 ≤ j → out ∈ fs →
      (∀ m, 1 ≤ m → m < j → candidate out m ∈ fs) →
      (∀ m, j ≤ m → candidate out m ∉ fs) →
      reserveSeq fs out k = (List.range' j k).map (candidate out) := by
  intro k
  induction k with
  | zero => intros; rfl
  | succ kk ih =>
    intro j fs hj hout hlt hge
    have hfree : candidate out j ∉ fs := hge j le_rfl
    have hbound : j - 1 ≤ fs.length := candidates_bound fs out 1 j hlt
    have hres : reservePath fs out = candidate out j := by
      unfold reservePath
      rw [if_pos hout,
        probeAux_spec fs out (fs.length + 1) 1 j hj (by omega) hfree hlt]
      rfl
    simp only [reserveSeq]
    rw [hres]
    have htail := ih (j + 1) (candidate out j :: fs) (by omega)
      (List.mem_cons_of_mem _ hout)
      (fun m h1 h2 => by
        rcases Nat.lt_or_ge m j with hmj | hmj
        · exact List.mem_cons_of_mem _ (hlt m h1 hmj)
        · have hmjj : m = j := by omega
          subst hmjj
          exact List.mem_cons_self _ _)
      (fun m hm hmem => by
        rcases List.mem_cons.mp hmem with heq | hmem2
        · have := candidate_inj out heq
          omega
        · exact hge m (by omega) hmem2)
    rw [htail]
    rfl

/-- C6: collision-safe naming.  A non-existing desired path is returned
unchanged; an existing one yields the first candidate
`"{stem} (n){ext}"`, probed in increasing order from `n = 1`, that does
not exist; and starting from a filesystem fresh for the desired path,
`N + 1` successive reservations yield exactly the `N + 1` distinct,
previously-nonexistent paths `path, path (1), …, path (N)` in that
order. -/
theorem reserve_collision_free :
    (∀ (fs : List String) (out : String), out ∉ fs →
      reservePath fs out = out) ∧
    (∀ (fs : List String) (out : String), out ∈ fs →
      ∃ n, 1 ≤ n ∧ reservePath fs out = candidate out n ∧
        candidate out n ∉ fs ∧
        ∀ m, 1 ≤ m → m < n → candidate out m ∈ fs) ∧
    (∀ (fs : List String) (out : String) (N : Nat), out ∉ fs →
      (∀ n, 1 ≤ n → candidate out n ∉ fs) →
      reserveSeq fs out (N + 1) =
        out :: (List.range' 1 N).map (candidate out) ∧
      (reserveSeq fs out (N + 1)).Nodup ∧
      ∀ p ∈ reserveSeq fs out (N + 1), p ∉ fs) := by
  refine ⟨?_, ?_, ?_⟩
  · intro fs out h
    unfold reservePath
    rw [if_neg h]
  · intro fs out hmem
    have hex : ∃ n, 1 ≤ n ∧ candidate out n ∉ fs := by
      by_contra hc
      push_neg at hc
      have := candidates_bound fs out 1 (fs.length + 2)
        (fun m h1 h2 => hc m h1)
      omega
    have hspec := Nat.find_spec hex
    have hall : ∀ m, 1 ≤ m → m < Nat.find hex → candidate out m ∈ fs := by
      intro m h1 h2
      have h3 := Nat.find_min hex h2
      push_neg at h3
      exact h3 h1
    refine ⟨Nat.find hex, hspec.1, ?_, hspec.2, hall⟩
    unfold reservePath
    rw [if_pos hmem]
    have hb : Nat.find hex - 1 ≤ fs.length :=
      candidates_bound fs out 1 (Nat.find hex) hall
    rw [probeAux_spec fs out (fs.length + 1) 1 (Nat.find hex) hspec.1
      (by omega) hspec.2 hall]
    rfl
  · intro fs out N hout hfresh
    have h1 : reserveSeq fs out (N + 1) =
        out :: (List.range' 1 N).map (candidate out) := by
      simp only [reserveSeq]
      have hres : reservePath fs out = out := by
        unfold reservePath
        rw [if_neg hout]
      rw [hres]
      have htail := reserveSeq_go out N 1 (out :: fs) le_rfl
        (List.mem_cons_self _ _)
        (fun m hm1 hm2 => absurd hm2 (by omega))
        (fun m hm hmem => by
          rcases List.mem_cons.mp hmem with heq | h2
          · exact candidate_ne_out out m heq
          · exact hfresh m hm h2)
      rw [htail]
    refine ⟨h1, ?_, ?_⟩
    · rw [h1]
      refine List.nodup_cons.mpr ⟨?_, ?_⟩
      · intro hmem
        rw [List.mem_map] at hmem
        obtain ⟨m, hm, heq⟩ := hmem
        exact candidate_ne_out out m heq
      · exact List.Nodup.map (fun x y hxy => candidate_inj out hxy)
          (List.nodup_range' (s := 1) (n := N))
    · intro p hp
      rw [h1] at hp
      rcases List.mem_cons.mp hp with rfl | hp2
      · exact hout
      · rw [List.mem_map] at hp2
        obtain ⟨m, hm, rfl⟩ := hp2
        exact hfresh m (List.mem_range'_1.mp hm).1

/-- C6 witness: concrete reservations — a fresh path is returned as-is, a
taken path yields a numbered candidate, and three successive reservations
of `"a.mkv"` on an empty directory give `a.mkv, a (1).mkv, a (2).mkv`. -/
theorem reserve_collision_free_witness :
    reservePath ["b.mkv"] "a.mkv" = "a.mkv" ∧
    (∃ n, 1 ≤ n ∧ reservePath ["a.mkv"] "a.mkv" = candidate "a.mkv" n ∧
      candidate "a.mkv" n ∉ ["a.mkv"] ∧
      ∀ m, 1 ≤ m → m < n → candidate "a.mkv" m ∈ ["a.mkv"]) ∧
    reserveSeq [] "a.mkv" 3 =
      "a.mkv" :: (List.range' 1 2).map (candidate "a.mkv") :=
  ⟨reserve_collision_free.1 ["b.mkv"] "a.mkv" (by decide),
   reserve_collision_free.2.1 ["a.mkv"] "a.mkv" (by decide),
   (reserve_collision_free.2.2 [] "a.mkv" 2 (by decide)
     (fun n hn => List.not_mem_nil _)).1⟩

end Bot
